import Mathlib

/-!
Verification of the prompt-file loader and registrar of `prompts-mcp`
(`src/prompts_mcp/main.py`), shallowly embedded in Lean.  Python strings are
modelled as Lean `String`s (lists of unicode scalar values), Python `dict`s as
association lists, exceptions as `Option`/sum results, and the process-level
behaviour (startup checks, signal handling) as explicit state machines.
-/

namespace PromptsMcp

/-- Whitespace characters recognised by Python `str.strip` (ASCII range). -/
def isPyWs (c : Char) : Bool :=
  c = ' ' || c = '\t' || c = '\n' || c = '\r' || c = Char.ofNat 11 || c = Char.ofNat 12

/-- Strip leading and trailing whitespace from a character list (Python `str.strip`). -/
def stripList (cs : List Char) : List Char :=
  ((cs.dropWhile isPyWs).reverse.dropWhile isPyWs).reverse

/-- Python `str.strip` on strings. -/
def pyStrip (s : String) : String := ⟨stripList s.data⟩

/-- Boolean check that the first list is a leading segment of the second. -/
def listPre : List Char → List Char → Bool
  | [], _ => true
  | _ :: _, [] => false
  | a :: as, b :: bs => a = b && listPre as bs

/-- Python `str.startswith`. -/
def pyStartsWith (s p : String) : Bool := listPre p.data s.data

/-- Python `str.upper` (ASCII letters, as used by the loader). -/
def pyUpper (s : String) : String := ⟨s.data.map Char.toUpper⟩

/-- Python slice `s[:n]`. -/
def pySlice (n : Nat) (s : String) : String := ⟨s.data.take n⟩

/-- Split a character list at newline characters (Python `str.split("\n")`). -/
def splitNlList : List Char → List (List Char)
  | [] => [[]]
  | c :: cs =>
    if c = '\n' then [] :: splitNlList cs
    else
      match splitNlList cs with
      | [] => [[c]]
      | l :: ls => (c :: l) :: ls

/-- Python `content.split("\n")`. -/
def pySplitNl (s : String) : List String := (splitNlList s.data).map (fun l => ⟨l⟩)

/-- Index of the last occurrence of a character in a list (Python `str.rfind`). -/
def rfindIdx : List Char → Char → Option Nat
  | [], _ => none
  | a :: as, c =>
    match rfindIdx as c with
    | some i => some (i + 1)
    | none => if a = c then some 0 else none

/-- Python `pathlib.PurePath.stem`: the final path component with its last
suffix removed (the suffix is dropped only when the last dot sits strictly
inside the name). -/
def pathStem (file : String) : String :=
  match rfindIdx file.data '.' with
  | none => file
  | some i => if 0 < i ∧ i < file.data.length - 1 then ⟨file.data.take i⟩ else file

/-- One step of Python `str.title`: a letter that follows a non-letter starts a
word and is upper-cased, any other letter is lower-cased. -/
def titleAux : Bool → List Char → List Char
  | _, [] => []
  | prevAlpha, c :: cs =>
    (if prevAlpha then c.toLower else c.toUpper) :: titleAux c.isAlpha cs

/-- Python `str.title` (ASCII letters). -/
def pyTitle (s : String) : String := ⟨titleAux false s.data⟩

/-- Python `str.replace("_", " ")`. -/
def underscoreToSpace (s : String) : String :=
  ⟨s.data.map (fun c => if c = '_' then ' ' else c)⟩

/-- The record assembled by `load_prompt_file`. -/
structure PromptRecord where
  name : String
  title : String
  description : String
  content : String
  deriving Repr, DecidableEq

/-- The heading marker looked for by the loader. -/
def markerStr : String := "# IDENTITY AND PURPOSE"

/-- The loader's test `line.strip().upper().startswith("# IDENTITY AND PURPOSE")`. -/
def markerTest (line : String) : Bool := pyStartsWith (pyUpper (pyStrip line)) markerStr

/-- The identity-section scanning loop of `load_prompt_file`, carrying the
`in_identity_section` flag and the accumulated description. -/
def identityLoop : Bool → String → List String → String
  | _, acc, [] => acc
  | inId, acc, line :: rest =>
    if markerTest line then identityLoop true acc rest
    else if pyStartsWith (pyStrip line) "#" && inId then acc
    else if inId && !(pyStrip line == "") then identityLoop inId (acc ++ pyStrip line ++ " ") rest
    else identityLoop inId acc rest

/-- The fallback loop of `load_prompt_file`: the first non-blank line that does
not start with `#` (before trimming), stripped, truncated to 100 characters,
with `"..."` appended. -/
def fallbackLoop : List String → String
  | [] => ""
  | line :: rest =>
    if !(pyStrip line == "") && !(pyStartsWith line "#") then
      pySlice 100 (pyStrip line) ++ "..."
    else fallbackLoop rest

/-- Shallow embedding of `load_prompt_file` (`src/prompts_mcp/main.py`), taking
the file's base name and the already-decoded text content. -/
def loadPromptFile (file : String) (content : String) : PromptRecord :=
  let stem := pathStem file
  let title := pyTitle (underscoreToSpace stem)
  let lines := pySplitNl content
  let descr := identityLoop false "" lines
  let descr2 := if pyStrip descr == "" then fallbackLoop lines else descr
  ⟨stem, title, pyStrip descr2, content⟩

/-- A UTF-8 continuation byte (`0x80 ≤ b ≤ 0xBF`). -/
def isCont (b : Nat) : Bool := 0x80 ≤ b && b ≤ 0xBF

/-- Strict UTF-8 decoding with a structural fuel argument (the fuel is always
instantiated with the byte count, which bounds the number of decoding steps). -/
def utf8DecodeAux : Nat → List Nat → Option (List Char)
  | _, [] => some []
  | 0, _ :: _ => none
  | fuel + 1, b :: rest =>
    if b < 0x80 then (utf8DecodeAux fuel rest).map (fun cs => Char.ofNat b :: cs)
    else if 0xC2 ≤ b && b ≤ 0xDF then
      match rest with
      | c1 :: rest1 =>
        if isCont c1 then
          (utf8DecodeAux fuel rest1).map
            (fun cs => Char.ofNat ((b - 0xC0) * 0x40 + (c1 - 0x80)) :: cs)
        else none
      | [] => none
    else if 0xE0 ≤ b && b ≤ 0xEF then
      match rest with
      | c1 :: c2 :: rest2 =>
        let cp := (b - 0xE0) * 0x1000 + (c1 - 0x80) * 0x40 + (c2 - 0x80)
        if isCont c1 && isCont c2 && 0x800 ≤ cp && !(0xD800 ≤ cp && cp ≤ 0xDFFF) then
          (utf8DecodeAux fuel rest2).map (fun cs => Char.ofNat cp :: cs)
        else none
      | _ => none
    else if 0xF0 ≤ b && b ≤ 0xF4 then
      match rest with
      | c1 :: c2 :: c3 :: rest3 =>
        let cp := (b - 0xF0) * 0x40000 + (c1 - 0x80) * 0x1000 + (c2 - 0x80) * 0x40 + (c3 - 0x80)
        if isCont c1 && isCont c2 && isCont c3 && 0x10000 ≤ cp && cp ≤ 0x10FFFF then
          (utf8DecodeAux fuel rest3).map (fun cs => Char.ofNat cp :: cs)
        else none
      | _ => none
    else none

/-- Strict UTF-8 decoding of a byte sequence, as performed by Python's
`bytes.decode("utf-8")` inside `Path.read_text(encoding="utf-8")`: `none`
models a raised `UnicodeDecodeError`. -/
def utf8Decode (bytes : List Nat) : Option (List Char) := utf8DecodeAux bytes.length bytes

/-- Model of `Path.read_text(encoding="utf-8")` over raw file bytes: `none` models the
propagated `UnicodeDecodeError`. -/
def readTextUtf8 (bytes : List Nat) : Option String :=
  (utf8Decode bytes).map (fun cs => ⟨cs⟩)

/-- The function `load_prompt_file` applied to a file whose raw bytes are given: the code's
only read is `prompt_path.read_text(encoding="utf-8")`, so a decode failure
makes the whole call fail (`none`). -/
def loadPromptFileBytes (file : String) (bytes : List Nat) : Option PromptRecord :=
  (readTextUtf8 bytes).map (loadPromptFile file)

/-- Association-list lookup, modelling Python `dict` access (keys unique). -/
def dictLookup (k : String) : List (String × String) → Option String
  | [] => none
  | (k', v) :: rest => if k' = k then some v else dictLookup k rest

/-- The registered `prompt_handler` closure (`src/prompts_mcp/main.py`):
`content` is the value captured at registration time, `arguments` the optional
argument map of the invocation.  Mirrors the Python truthiness tests
`if arguments and "input" in arguments and arguments["input"]`. -/
def promptHandler (content : String) (arguments : Option (List (String × String))) : String :=
  match arguments with
  | none => content
  | some args =>
    if args.isEmpty then content
    else
      match dictLookup "input" args with
      | none => content
      | some v => if v = "" then content else content ++ "\n\n" ++ v

/-- The handler obtained by registering a `PromptRecord`: it closes over the
record's `content` and performs no further I/O. -/
def registeredHandler (r : PromptRecord) : Option (List (String × String)) → String :=
  promptHandler r.content

/-- Outcome of `prompt_path.read_text` for one directory entry: the decoded
text, or a raised `OSError`/`UnicodeDecodeError` carried as a message. -/
inductive ReadOutcome where
  | ok (content : String)
  | err (msg : String)
  deriving Repr, DecidableEq

/-- Returns `true` on a successful read. -/
def ReadOutcome.isOk : ReadOutcome → Bool
  | .ok _ => true
  | .err _ => false

/-- Python `str.endswith`, used to model the `*.md` glob. -/
def strEndsWith (s suffix : String) : Bool := listPre suffix.data.reverse s.data.reverse

/-- A directory entry is scanned by `load_all_prompts` when it matches the
`*.md` glob and is not the reserved `README.md`. -/
def eligible (file : String) : Bool := strEndsWith file ".md" && !(file == "README.md")

/-- Result of one `load_all_prompts` pass: the records registered (in
directory order) and the files whose load raised and was logged. -/
structure LoadPassResult where
  registered : List PromptRecord
  errored : List String
  deriving Repr, DecidableEq

/-- Shallow embedding of the `load_all_prompts` loop: the directory listing is
a list of entries with the outcome of reading each.  A failing read is caught
(`except (OSError, ValueError, UnicodeDecodeError)`), logged, and the loop
continues with the next file. -/
def loadAllPrompts : List (String × ReadOutcome) → LoadPassResult
  | [] => ⟨[], []⟩
  | (file, outcome) :: rest =>
    if eligible file then
      match outcome with
      | .ok c =>
        let r := loadAllPrompts rest
        ⟨loadPromptFile file c :: r.registered, r.errored⟩
      | .err _ =>
        let r := loadAllPrompts rest
        ⟨r.registered, file :: r.errored⟩
    else loadAllPrompts rest

/-- The log message for a missing `PROMPTS_DIR`. -/
def requiredMsg : String :=
  "PROMPTS_DIR environment variable is required. Please set PROMPTS_DIR to the path containing your prompt files"

/-- The log message for a `PROMPTS_DIR` pointing at a nonexistent path,
with the resolved path interpolated for `%s`. -/
def notExistMsg (p : String) : String :=
  "Prompts directory does not exist: " ++ p ++ ". Please set PROMPTS_DIR environment variable to a valid path"

/-- Result of `PromptsMCPServer._initialize_server`: either a fatal logged
error followed by `sys.exit(code)`, or the resolved prompts directory. -/
inductive InitResult where
  | fatal (exitCode : Nat) (logMsg : String)
  | ready (dir : String)
  deriving Repr, DecidableEq

/-- Shallow embedding of `_initialize_server`: `env` is `os.getenv("PROMPTS_DIR")`,
`resolve` models `Path(...).expanduser().resolve()`, and `pathEx` models
`Path.exists`.  `if not prompts_dir_env` treats both an unset and an empty
variable as missing. -/
def initServer (env : Option String) (resolve : String → String)
    (pathEx : String → Bool) : InitResult :=
  match env with
  | none => .fatal 1 requiredMsg
  | some s =>
    if s = "" then .fatal 1 requiredMsg
    else if pathEx (resolve s) then .ready (resolve s)
    else .fatal 1 (notExistMsg (resolve s))

/-- Substring occurrence check over character lists. -/
def subOccurs (needle : List Char) : List Char → Bool
  | [] => listPre needle []
  | c :: cs => listPre needle (c :: cs) || subOccurs needle cs

/-- Whether `sub` occurs somewhere inside `s` (Python `sub in s`). -/
def strContains (s sub : String) : Bool := subOccurs sub.data s.data

/-- The two interrupt signals the server wires (`SIGINT`, `SIGTERM`). -/
inductive SignalKind where
  | sigint
  | sigterm
  deriving Repr, DecidableEq

/-- Which handler is currently installed for a signal: the server's graceful
`signal_handler`, or the forced-exit lambda installed on first interrupt. -/
inductive HandlerKind where
  | graceful
  | forced
  deriving Repr, DecidableEq

/-- Signal-relevant server state: the `signal_count` field and the handlers
installed for the two signals. -/
structure ServerSignalState where
  signalCount : Nat
  sigintHandler : HandlerKind
  sigtermHandler : HandlerKind
  deriving Repr, DecidableEq

/-- State after `main` registers `server.signal_handler` for both signals. -/
def initialSignalState : ServerSignalState := ⟨0, .graceful, .graceful⟩

/-- Result of delivering one signal: the updated state, the messages logged,
and the exit status passed to `os._exit`. -/
structure SignalOutcome where
  state : ServerSignalState
  logs : List String
  exitCode : Nat
  deriving Repr, DecidableEq

/-- Log line on first interrupt. -/
def gracefulMsg : String := "Received interrupt signal, shutting down gracefully..."

/-- Hint logged right after the first interrupt. -/
def pressAgainMsg : String := "Press Ctrl+C again to force exit"

/-- Warning logged when `signal_handler` runs with a prior interrupt counted. -/
def secondInterruptMsg : String := "Received second interrupt signal, forcing exit..."

/-- Body of `PromptsMCPServer.signal_handler`: increments `signal_count`; on
the first interrupt it logs both shutdown messages, installs the forced-exit
lambda for both signals, and exits with status 0; on a later invocation it
logs a warning and exits with status 1. -/
def signalHandlerStep (st : ServerSignalState) : SignalOutcome :=
  let c := st.signalCount + 1
  if c = 1 then ⟨⟨c, .forced, .forced⟩, [gracefulMsg, pressAgainMsg], 0⟩
  else ⟨⟨c, st.sigintHandler, st.sigtermHandler⟩, [secondInterruptMsg], 1⟩

/-- Deliver one signal: run whichever handler is installed for it.  The forced
lambda `lambda _s, _f: os._exit(1)` logs nothing and exits with status 1. -/
def deliverSignal (st : ServerSignalState) (s : SignalKind) : SignalOutcome :=
  let h := match s with
    | .sigint => st.sigintHandler
    | .sigterm => st.sigtermHandler
  match h with
  | .graceful => signalHandlerStep st
  | .forced => ⟨st, [], 1⟩

/-- Capitalise one word as the spec reads it: first character upper-cased, the
remaining characters lower-cased. -/
def capitalizeWord : List Char → List Char
  | [] => []
  | c :: cs => c.toUpper :: cs.map Char.toLower

/-- Modelled from the spec: "each word capitalized", reading a word as a
maximal run of letters; separators are left unchanged. -/
def specTitleList : List Char → List Char
  | [] => []
  | c :: cs =>
    if c.isAlpha then
      capitalizeWord (c :: cs.takeWhile Char.isAlpha)
        ++ specTitleList (cs.dropWhile Char.isAlpha)
    else c :: specTitleList cs
termination_by l => l.length
decreasing_by
  all_goals simp_all
  have h := congrArg List.length (List.takeWhile_append_dropWhile (p := Char.isAlpha) (l := cs))
  simp only [List.length_append] at h
  omega

/-- The description accumulator of the identity-section loop: each stripped
line followed by one trailing space, concatenated in order. -/
def accStrOf : List String → String
  | [] => ""
  | m :: ms => (pyStrip m ++ " ") ++ accStrOf ms

/-- Lines joined by single spaces (the spec's description format). -/
def joinSpace : List String → String
  | [] => ""
  | [s] => s
  | s :: rest => s ++ " " ++ joinSpace rest

/-! ### General helper lemmas -/

theorem strExt {a b : String} (h : a.data = b.data) : a = b := by
  cases a
  cases b
  exact congrArg String.mk h

theorem data_append (a b : String) : (a ++ b).data = a.data ++ b.data := by
  cases a
  cases b
  rfl

theorem toNat_ofNat_valid {m : Nat} (h : m.isValidChar) : (Char.ofNat m).toNat = m := by
  rw [Char.ofNat, dif_pos h]
  rfl

theorem toUpper_unfold (c : Char) :
    c.toUpper = if 97 ≤ c.toNat ∧ c.toNat ≤ 122 then Char.ofNat (c.toNat - 32) else c := rfl

theorem toLower_unfold (c : Char) :
    c.toLower = if 65 ≤ c.toNat ∧ c.toNat ≤ 90 then Char.ofNat (c.toNat + 32) else c := rfl

theorem toUpper_eq_hash {c : Char} (h : c.toUpper = '#') : c = '#' := by
  rw [toUpper_unfold] at h
  by_cases hc : 97 ≤ c.toNat ∧ c.toNat ≤ 122
  · exfalso
    rw [if_pos hc] at h
    have hv : (c.toNat - 32).isValidChar := Or.inl (by omega)
    have h2 := congrArg Char.toNat h
    rw [toNat_ofNat_valid hv] at h2
    have h3 : Char.toNat '#' = 35 := by decide
    omega
  · rwa [if_neg hc] at h

theorem isLower_iff {c : Char} : c.isLower = true ↔ 97 ≤ c.toNat ∧ c.toNat ≤ 122 := by
  simp [Char.isLower, UInt32.le_def, BitVec.le_def, Char.toNat, UInt32.toNat]

theorem isUpper_iff {c : Char} : c.isUpper = true ↔ 65 ≤ c.toNat ∧ c.toNat ≤ 90 := by
  simp [Char.isUpper, UInt32.le_def, BitVec.le_def, Char.toNat, UInt32.toNat]

theorem toUpper_of_not_lower {c : Char} (h : ¬ c.isLower = true) : c.toUpper = c := by
  rw [toUpper_unfold, if_neg]
  intro hc
  exact h (isLower_iff.mpr hc)

theorem toLower_of_not_upper {c : Char} (h : ¬ c.isUpper = true) : c.toLower = c := by
  rw [toLower_unfold, if_neg]
  intro hc
  exact h (isUpper_iff.mpr hc)

theorem toUpper_of_not_alpha {c : Char} (h : ¬ c.isAlpha = true) : c.toUpper = c := by
  apply toUpper_of_not_lower
  intro hl
  exact h (by simp [Char.isAlpha, hl])

theorem toLower_of_not_alpha {c : Char} (h : ¬ c.isAlpha = true) : c.toLower = c := by
  apply toLower_of_not_upper
  intro hl
  exact h (by simp [Char.isAlpha, hl])

theorem listPre_append {n l b : List Char} (h : listPre n l = true) :
    listPre n (l ++ b) = true := by
  induction n generalizing l with
  | nil => simp [listPre]
  | cons a as ih =>
    cases l with
    | nil => simp [listPre] at h
    | cons c cs =>
      simp only [listPre, Bool.and_eq_true] at h ⊢
      exact ⟨h.1, ih h.2⟩

theorem subOccurs_nil_needle (l : List Char) : subOccurs [] l = true := by
  cases l with
  | nil => rfl
  | cons c cs => simp [subOccurs, listPre]

theorem subOccurs_append {n a b : List Char} (h : subOccurs n a = true) :
    subOccurs n (a ++ b) = true := by
  induction a with
  | nil =>
    cases n with
    | nil => exact subOccurs_nil_needle b
    | cons x xs => simp [subOccurs, listPre] at h
  | cons c a' ih =>
    simp only [subOccurs, Bool.or_eq_true] at h
    rcases h with h | h
    · simp only [List.cons_append, subOccurs, Bool.or_eq_true]
      exact Or.inl (listPre_append h)
    · simp only [List.cons_append, subOccurs, Bool.or_eq_true]
      exact Or.inr (ih h)

theorem notExist_contains (p : String) :
    strContains (notExistMsg p) "does not exist" = true := by
  have h1 : subOccurs ("does not exist".data) ("Prompts directory does not exist: ".data)
      = true := by decide
  unfold strContains notExistMsg
  rw [data_append, data_append, List.append_assoc]
  exact subOccurs_append h1

/-! ### Claim theorems, first batch -/

/-- Claim C1: the spec (and the repo's own tests `test_encoding_fallback_system_default`
and `test_encoding_fallback_bytes_decode`) say `load_prompt_file` never fails solely
because the file's bytes are not valid UTF-8, falling back to the platform encoding
and then to replacement decoding.  The code performs a single strict
`read_text(encoding="utf-8")`, so on the bytes `0xFF 0xFE` (not valid UTF-8 anywhere)
the load fails outright, while a valid UTF-8 file loads normally. -/
theorem claim_C1 :
    readTextUtf8 [0xFF, 0xFE] = none
    ∧ loadPromptFileBytes "test_encoding_bytes.md" [0xFF, 0xFE] = none
    ∧ loadPromptFileBytes "ok.md" [104, 105] = some (loadPromptFile "ok.md" "hi") := by
  refine ⟨rfl, rfl, ?_⟩
  decide

/-- Claim C4: a registered prompt handler returns the captured content followed by
two newlines and the `"input"` argument when that argument is present and non-empty,
and returns the content unchanged when invoked with `None`, an empty map, a map
without `"input"`, or an empty `"input"` value.  The handler is a pure function of
the content captured at registration time. -/
theorem claim_C4 :
    ∀ (r : PromptRecord) (args : List (String × String)) (x : String),
    (dictLookup "input" args = some x → x ≠ "" →
      registeredHandler r (some args) = r.content ++ "\n\n" ++ x)
    ∧ registeredHandler r none = r.content
    ∧ registeredHandler r (some []) = r.content
    ∧ (dictLookup "input" args = some "" → registeredHandler r (some args) = r.content)
    ∧ (dictLookup "input" args = none → registeredHandler r (some args) = r.content) := by
  intro r args x
  refine ⟨?_, rfl, rfl, ?_, ?_⟩
  · intro h hx
    cases args with
    | nil => simp [dictLookup] at h
    | cons hd tl =>
      simp only [registeredHandler, promptHandler, List.isEmpty_cons, h, Bool.false_eq_true,
        if_false]
      rw [if_neg hx]
  · intro h
    cases args with
    | nil => rfl
    | cons hd tl =>
      simp [registeredHandler, promptHandler, h]
  · intro h
    cases args with
    | nil => rfl
    | cons hd tl =>
      simp [registeredHandler, promptHandler, h]

theorem claim_C4_witness :
    registeredHandler ⟨"n", "t", "d", "C"⟩ (some [("input", "X")]) = "C" ++ "\n\n" ++ "X" :=
  (claim_C4 ⟨"n", "t", "d", "C"⟩ [("input", "X")] "X").1 (by decide) (by decide)

/-- Claim C8: with `PROMPTS_DIR` unset (or empty, which Python's truthiness treats
identically), initialization fails with exit status 1 logging the "PROMPTS_DIR
environment variable is required" message; with it set to a path that does not
exist, initialization fails with exit status 1 logging a distinct message
containing "does not exist".  Both happen before any registration: a fatal
`InitResult` carries no server handle. -/
theorem claim_C8 :
    ∀ (resolve : String → String) (pathEx : String → Bool) (s : String),
    (initServer none resolve pathEx = .fatal 1 requiredMsg
      ∧ strContains requiredMsg "PROMPTS_DIR environment variable is required" = true)
    ∧ (s ≠ "" → pathEx (resolve s) = false →
        initServer (some s) resolve pathEx = .fatal 1 (notExistMsg (resolve s))
        ∧ strContains (notExistMsg (resolve s)) "does not exist" = true)
    ∧ requiredMsg ≠ notExistMsg (resolve s) := by
  intro resolve pathEx s
  refine ⟨⟨rfl, by decide⟩, ?_, ?_⟩
  · intro hs hex
    refine ⟨?_, notExist_contains (resolve s)⟩
    simp [initServer, hs, hex]
  · intro h
    have h1 : strContains requiredMsg "does not exist" = false := by decide
    have h2 := notExist_contains (resolve s)
    rw [← h] at h2
    rw [h1] at h2
    exact absurd h2 (by decide)

theorem claim_C8_witness :
    initServer (some "/nope") id (fun _ => false) = .fatal 1 (notExistMsg "/nope")
    ∧ strContains (notExistMsg "/nope") "does not exist" = true :=
  (claim_C8 id (fun _ => false) "/nope").2.1 (by decide) rfl

/-- Claim C9: the shutdown sequence as a two-state machine.  From the armed
initial state, either signal logs the graceful and press-again messages,
installs the forced-exit handler for both signals, and exits with status 0.
A `signal_handler` invocation with an interrupt already counted logs the
warning and exits with status 1; the forced handler exits with status 1
immediately without logging.  Exit status 0 is only possible from the pristine
armed state, never after more than one interrupt. -/
theorem claim_C9 :
    ∀ (s : SignalKind) (st : ServerSignalState),
    deliverSignal initialSignalState s
      = ⟨⟨1, .forced, .forced⟩, [gracefulMsg, pressAgainMsg], 0⟩
    ∧ (st.signalCount ≥ 1 →
        signalHandlerStep st
          = ⟨⟨st.signalCount + 1, st.sigintHandler, st.sigtermHandler⟩, [secondInterruptMsg], 1⟩)
    ∧ (st.sigintHandler = .forced → deliverSignal st .sigint = ⟨st, [], 1⟩)
    ∧ (st.sigtermHandler = .forced → deliverSignal st .sigterm = ⟨st, [], 1⟩)
    ∧ ((deliverSignal st s).exitCode = 0 →
        st.signalCount = 0 ∧ (deliverSignal st s).logs = [gracefulMsg, pressAgainMsg]) := by
  intro s st
  refine ⟨?_, ?_, ?_, ?_, ?_⟩
  · cases s <;> rfl
  · intro h
    unfold signalHandlerStep
    rw [if_neg (by omega)]
  · intro h
    simp [deliverSignal, h]
  · intro h
    simp [deliverSignal, h]
  · intro h0
    cases s with
    | sigint =>
      cases hh : st.sigintHandler with
      | forced =>
        rw [show deliverSignal st .sigint = ⟨st, [], 1⟩ from by simp [deliverSignal, hh]] at h0
        exact Nat.noConfusion h0
      | graceful =>
        rw [show deliverSignal st .sigint = signalHandlerStep st from by simp [deliverSignal, hh]]
          at h0 ⊢
        unfold signalHandlerStep at h0 ⊢
        by_cases hc : st.signalCount + 1 = 1
        · rw [if_pos hc] at h0 ⊢
          exact ⟨by omega, rfl⟩
        · rw [if_neg hc] at h0
          exact Nat.noConfusion h0
    | sigterm =>
      cases hh : st.sigtermHandler with
      | forced =>
        rw [show deliverSignal st .sigterm = ⟨st, [], 1⟩ from by simp [deliverSignal, hh]] at h0
        exact Nat.noConfusion h0
      | graceful =>
        rw [show deliverSignal st .sigterm = signalHandlerStep st from by simp [deliverSignal, hh]]
          at h0 ⊢
        unfold signalHandlerStep at h0 ⊢
        by_cases hc : st.signalCount + 1 = 1
        · rw [if_pos hc] at h0 ⊢
          exact ⟨by omega, rfl⟩
        · rw [if_neg hc] at h0
          exact Nat.noConfusion h0

theorem claim_C9_witness :
    signalHandlerStep ⟨1, .forced, .forced⟩ = ⟨⟨2, .forced, .forced⟩, [secondInterruptMsg], 1⟩
    ∧ deliverSignal ⟨1, .forced, .forced⟩ .sigint = ⟨⟨1, .forced, .forced⟩, [], 1⟩ :=
  ⟨(claim_C9 .sigint ⟨1, .forced, .forced⟩).2.1 (by decide),
   (claim_C9 .sigint ⟨1, .forced, .forced⟩).2.2.1 rfl⟩

/-! ### Title-case equivalence and name/title claims -/

theorem titleAux_false_cons (c : Char) (cs : List Char) :
    titleAux false (c :: cs) = c.toUpper :: titleAux c.isAlpha cs := rfl

theorem titleAux_true_cons (c : Char) (cs : List Char) :
    titleAux true (c :: cs) = c.toLower :: titleAux c.isAlpha cs := rfl

theorem specTitleList_nil : specTitleList [] = [] := by
  rw [specTitleList.eq_def]

theorem specTitleList_cons (c : Char) (cs : List Char) :
    specTitleList (c :: cs)
      = if c.isAlpha then
          capitalizeWord (c :: cs.takeWhile Char.isAlpha)
            ++ specTitleList (cs.dropWhile Char.isAlpha)
        else c :: specTitleList cs := by
  rw [specTitleList.eq_def]

theorem titleAux_spec (cs : List Char) :
    titleAux false cs = specTitleList cs
    ∧ titleAux true cs
        = (cs.takeWhile Char.isAlpha).map Char.toLower
          ++ specTitleList (cs.dropWhile Char.isAlpha) := by
  induction cs with
  | nil => exact ⟨by simp [titleAux, specTitleList_nil], by simp [titleAux, specTitleList_nil]⟩
  | cons c cs ih =>
    have hsp := specTitleList_cons c cs
    constructor
    · by_cases hc : c.isAlpha = true
      · rw [titleAux_false_cons, hsp, if_pos hc, hc, ih.2]
        simp [capitalizeWord]
      · have hc' : c.isAlpha = false := by
          revert hc
          cases c.isAlpha <;> simp
        rw [titleAux_false_cons, hsp, if_neg hc, hc', ih.1, toUpper_of_not_alpha hc]
    · by_cases hc : c.isAlpha = true
      · rw [titleAux_true_cons, hc, ih.2]
        simp [List.takeWhile_cons, List.dropWhile_cons, hc]
      · have hc' : c.isAlpha = false := by
          revert hc
          cases c.isAlpha <;> simp
        rw [titleAux_true_cons, hc', ih.1, toLower_of_not_alpha hc]
        simp [List.takeWhile_cons, List.dropWhile_cons, hc', hsp]

/-- Claim C6: `load_prompt_file` derives `name` as the file's base name with its
last extension stripped, and `title` as that name with underscores replaced by
spaces and each word capitalized — where the code's `str.title` provably equals
the spec's per-word capitalisation (`specTitleList`) for every string.  The
spec's own example `test_prompt_1` ↦ `Test Prompt 1` is included. -/
theorem claim_C6 :
    ∀ (file content s : String),
    (loadPromptFile file content).name = pathStem file
    ∧ (loadPromptFile file content).title = pyTitle (underscoreToSpace (pathStem file))
    ∧ pyTitle s = ⟨specTitleList s.data⟩
    ∧ (loadPromptFile "test_prompt_1.md" content).name = "test_prompt_1"
    ∧ (loadPromptFile "test_prompt_1.md" content).title = "Test Prompt 1" := by
  intro file content s
  refine ⟨rfl, rfl, ?_, rfl, rfl⟩
  exact congrArg String.mk (titleAux_spec s.data).1

/-! ### Load-pass claims -/

/-- Claim C5: one `load_all_prompts` pass over a directory registers exactly the
eligible files whose read succeeded (so N registrations), logs exactly the
eligible files whose read raised (so M errors, each identifying its file), and
a failing file never prevents any other file from being registered — the model
is a total function, so no exception escapes the pass. -/
theorem claim_C5 :
    ∀ (files : List (String × ReadOutcome)),
    (loadAllPrompts files).registered.length
        = (files.filter (fun f => eligible f.1 && f.2.isOk)).length
    ∧ (loadAllPrompts files).errored
        = (files.filter (fun f => eligible f.1 && !f.2.isOk)).map (fun f => f.1)
    ∧ (loadAllPrompts files).errored.length
        = (files.filter (fun f => eligible f.1 && !f.2.isOk)).length
    ∧ (∀ file c, (file, ReadOutcome.ok c) ∈ files → eligible file = true →
        loadPromptFile file c ∈ (loadAllPrompts files).registered) := by
  intro files
  induction files with
  | nil =>
    refine ⟨rfl, rfl, rfl, ?_⟩
    intro _ _ h
    cases h
  | cons hd tl ih =>
    obtain ⟨ih1, ih2, ih3, ih4⟩ := ih
    obtain ⟨file, outcome⟩ := hd
    by_cases he : eligible file = true
    · cases outcome with
      | ok c =>
        refine ⟨?_, ?_, ?_, ?_⟩
        · simp [loadAllPrompts, he, List.filter_cons, ReadOutcome.isOk, ih1]
        · simp [loadAllPrompts, he, List.filter_cons, ReadOutcome.isOk, ih2]
        · simp [loadAllPrompts, he, List.filter_cons, ReadOutcome.isOk, ih3]
        · intro f c' hmem helig
          rcases List.mem_cons.mp hmem with heq | hmem'
          · obtain ⟨hf, hoc⟩ := Prod.mk.injEq .. ▸ heq
            obtain rfl := hf
            obtain rfl : c' = c := by
              cases hoc
              rfl
            simp [loadAllPrompts, he]
          · have := ih4 f c' hmem' helig
            simp [loadAllPrompts, he]
            exact Or.inr this
      | err m =>
        refine ⟨?_, ?_, ?_, ?_⟩
        · simp [loadAllPrompts, he, List.filter_cons, ReadOutcome.isOk, ih1]
        · simp [loadAllPrompts, he, List.filter_cons, ReadOutcome.isOk, ih2]
        · simp [loadAllPrompts, he, List.filter_cons, ReadOutcome.isOk, ih3]
        · intro f c' hmem helig
          rcases List.mem_cons.mp hmem with heq | hmem'
          · exfalso
            obtain ⟨-, hoc⟩ := Prod.mk.injEq .. ▸ heq
            exact ReadOutcome.noConfusion hoc
          · have := ih4 f c' hmem' helig
            simpa [loadAllPrompts, he] using this
    · have he' : eligible file = false := by
        cases h : eligible file
        · rfl
        · exact absurd h he
      refine ⟨?_, ?_, ?_, ?_⟩
      · simp [loadAllPrompts, he', List.filter_cons, ih1]
      · simp [loadAllPrompts, he', List.filter_cons, ih2]
      · simp [loadAllPrompts, he', List.filter_cons, ih3]
      · intro f c' hmem helig
        rcases List.mem_cons.mp hmem with heq | hmem'
        · exfalso
          obtain ⟨hf, -⟩ := Prod.mk.injEq .. ▸ heq
          rw [hf] at helig
          rw [helig] at he'
          exact Bool.noConfusion he'
        · have := ih4 f c' hmem' helig
          simpa [loadAllPrompts, he'] using this

theorem claim_C5_witness :
    loadPromptFile "b.md" "y"
      ∈ (loadAllPrompts
          [("a.md", .ok "x"), ("bad.md", .err "boom"), ("b.md", .ok "y"),
           ("README.md", .ok "z")]).registered :=
  (claim_C5
      [("a.md", .ok "x"), ("bad.md", .err "boom"), ("b.md", .ok "y"),
       ("README.md", .ok "z")]).2.2.2 "b.md" "y" (by decide) (by decide)

theorem rfind_none {l : List Char} {c : Char} (h : c ∉ l) : rfindIdx l c = none := by
  induction l with
  | nil => rfl
  | cons a as ih =>
    simp only [List.mem_cons, not_or] at h
    simp only [rfindIdx, ih h.2]
    rw [if_neg (fun hac => h.1 hac.symm)]

theorem rfind_last {u v : List Char} {c : Char} (h : c ∉ v) :
    rfindIdx (u ++ c :: v) c = some u.length := by
  induction u with
  | nil => simp [rfindIdx, rfind_none h]
  | cons a u' ih => simp [rfindIdx, ih]

theorem listPre_cons_ex {a : Char} {as l : List Char} (h : listPre (a :: as) l = true) :
    ∃ t, l = a :: t ∧ listPre as t = true := by
  cases l with
  | nil => simp [listPre] at h
  | cons b bs =>
    simp only [listPre, Bool.and_eq_true, decide_eq_true_eq] at h
    obtain ⟨hab, h2⟩ := h
    subst hab
    exact ⟨bs, rfl, h2⟩

theorem strEndsWith_md {file : String} (h : strEndsWith file ".md" = true) :
    ∃ u, file.data = u ++ '.' :: 'm' :: 'd' :: [] := by
  unfold strEndsWith at h
  have hlit : (".md" : String).data.reverse = ['d', 'm', '.'] := rfl
  rw [hlit] at h
  obtain ⟨t1, ht1, h1⟩ := listPre_cons_ex h
  obtain ⟨t2, ht2, h2⟩ := listPre_cons_ex h1
  obtain ⟨t3, ht3, -⟩ := listPre_cons_ex h2
  refine ⟨t3.reverse, ?_⟩
  have hrev := congrArg List.reverse ht1
  rw [List.reverse_reverse] at hrev
  rw [hrev, ht2, ht3]
  simp

theorem pathStem_md {file : String} (h : strEndsWith file ".md" = true)
    (hne : file ≠ "README.md") : pathStem file ≠ "README" := by
  obtain ⟨u, hu⟩ := strEndsWith_md h
  have hdot : ('.' : Char) ∉ ['m', 'd'] := by decide
  have hr : rfindIdx file.data '.' = some u.length := by
    rw [hu]
    exact rfind_last hdot
  unfold pathStem
  rw [hr]
  show (if 0 < u.length ∧ u.length < file.data.length - 1 then
      String.mk (file.data.take u.length) else file) ≠ "README"
  by_cases h0 : 0 < u.length
  · have hlen : file.data.length = u.length + 3 := by
      rw [hu]
      simp
    rw [if_pos ⟨h0, by omega⟩]
    intro heq
    have hdata : file.data.take u.length = "README".data := congrArg String.data heq
    have htake : file.data.take u.length = u := by
      rw [hu]
      exact List.take_left u _
    rw [htake] at hdata
    apply hne
    apply strExt
    rw [hu, hdata]
    decide
  · rw [if_neg (fun hc => h0 hc.1)]
    intro hfeq
    have hu0 : u = [] := List.length_eq_zero.mp (by omega)
    have hd : file.data = ['.', 'm', 'd'] := by
      rw [hu, hu0]
      rfl
    rw [hfeq] at hd
    exact absurd hd (by decide)

/-- Claim C7: after any `load_all_prompts` pass, the name `README` is never among
the registered prompt names: `README.md` is skipped by the case-sensitive guard,
and no other `*.md` glob match can have stem `README`. -/
theorem claim_C7 :
    ∀ (files : List (String × ReadOutcome)),
    "README" ∉ (loadAllPrompts files).registered.map PromptRecord.name := by
  intro files
  induction files with
  | nil =>
    intro h
    cases h
  | cons hd tl ih =>
    obtain ⟨file, outcome⟩ := hd
    by_cases he : eligible file = true
    · cases outcome with
      | ok c =>
        have hname : (loadPromptFile file c).name = pathStem file := rfl
        have hparts : strEndsWith file ".md" = true ∧ file ≠ "README.md" := by
          have h2 := he
          simp only [eligible, Bool.and_eq_true, Bool.not_eq_true', beq_eq_false_iff_ne] at h2
          exact h2
        intro hmem
        simp only [loadAllPrompts, he, if_true, List.map_cons, List.mem_cons] at hmem
        rcases hmem with hmem | hmem
        · rw [hname] at hmem
          exact pathStem_md hparts.1 hparts.2 hmem.symm
        · exact ih hmem
      | err m =>
        intro hmem
        simp only [loadAllPrompts, he, if_true] at hmem
        exact ih hmem
    · have he' : eligible file = false := by
        revert he
        cases eligible file <;> simp
      intro hmem
      simp only [loadAllPrompts, he', Bool.false_eq_true, if_false] at hmem
      exact ih hmem

theorem claim_C7_witness :
    "README" ∉ (loadAllPrompts
        [("README.md", .ok "ignore me"), ("a.md", .ok "# A\ncontent")]).registered.map
      PromptRecord.name :=
  claim_C7 [("README.md", .ok "ignore me"), ("a.md", .ok "# A\ncontent")]

/-! ### Whitespace-stripping machinery -/

theorem str_append_nil (s : String) : s ++ "" = s := by
  apply strExt
  rw [data_append]
  exact List.append_nil _

theorem str_nil_append (s : String) : "" ++ s = s := by
  apply strExt
  rw [data_append]
  rfl

theorem str_append_assoc (a b c : String) : (a ++ b) ++ c = a ++ (b ++ c) := by
  apply strExt
  simp [data_append, List.append_assoc]

theorem dw_head_not {l : List Char} {c : Char}
    (h : (l.dropWhile isPyWs).head? = some c) : isPyWs c = false := by
  have hh := List.head?_dropWhile_not isPyWs l
  rw [h] at hh
  exact hh

theorem dw_fix {l : List Char} (h : ∀ c, l.head? = some c → isPyWs c = false) :
    l.dropWhile isPyWs = l := by
  cases l with
  | nil => rfl
  | cons a as =>
    rw [List.dropWhile_cons_of_neg]
    rw [h a rfl]
    exact Bool.false_ne_true

theorem dw_dw (l : List Char) :
    (l.dropWhile isPyWs).dropWhile isPyWs = l.dropWhile isPyWs :=
  dw_fix (fun _ h => dw_head_not h)

theorem dw_len_le (p : Char → Bool) (l : List Char) : (l.dropWhile p).length ≤ l.length := by
  have h := congrArg List.length (List.takeWhile_append_dropWhile (p := p) (l := l))
  simp only [List.length_append] at h
  omega

theorem dw_eq_of_len {l : List Char} (h : (l.dropWhile isPyWs).length = l.length) :
    l.dropWhile isPyWs = l := by
  cases l with
  | nil => rfl
  | cons a as =>
    by_cases ha : isPyWs a = true
    · exfalso
      rw [List.dropWhile_cons_of_pos ha] at h
      have := dw_len_le isPyWs as
      simp only [List.length_cons] at h
      omega
    · exact List.dropWhile_cons_of_neg ha

theorem dw_suffix (p : Char → Bool) (l : List Char) : ∃ t, t ++ l.dropWhile p = l := by
  induction l with
  | nil => exact ⟨[], rfl⟩
  | cons a as ih =>
    by_cases ha : p a = true
    · obtain ⟨t, ht⟩ := ih
      rw [List.dropWhile_cons_of_pos ha]
      exact ⟨a :: t, by rw [List.cons_append, ht]⟩
    · rw [List.dropWhile_cons_of_neg ha]
      exact ⟨[], rfl⟩

theorem strip_len_le (l : List Char) : (stripList l).length ≤ l.length := by
  unfold stripList
  rw [List.length_reverse]
  calc ((l.dropWhile isPyWs).reverse.dropWhile isPyWs).length
      ≤ (l.dropWhile isPyWs).reverse.length := dw_len_le _ _
    _ = (l.dropWhile isPyWs).length := List.length_reverse _
    _ ≤ l.length := dw_len_le _ _

theorem stripped_dw {l : List Char} (h : stripList l = l) : l.dropWhile isPyWs = l := by
  apply dw_eq_of_len
  have h1 := congrArg List.length h
  have h2 : (stripList l).length ≤ (l.dropWhile isPyWs).length := by
    unfold stripList
    rw [List.length_reverse]
    calc ((l.dropWhile isPyWs).reverse.dropWhile isPyWs).length
        ≤ (l.dropWhile isPyWs).reverse.length := dw_len_le _ _
      _ = (l.dropWhile isPyWs).length := List.length_reverse _
  have h3 := dw_len_le isPyWs l
  omega

theorem stripped_dw_reverse {l : List Char} (h : stripList l = l) :
    l.reverse.dropWhile isPyWs = l.reverse := by
  have h1 := stripped_dw h
  have h2 : stripList l = (l.reverse.dropWhile isPyWs).reverse := by
    unfold stripList
    rw [h1]
  rw [h] at h2
  have := congrArg List.reverse h2
  rw [List.reverse_reverse] at this
  exact this.symm

theorem stripped_of_ends {l : List Char} (h1 : l.dropWhile isPyWs = l)
    (h2 : l.reverse.dropWhile isPyWs = l.reverse) : stripList l = l := by
  unfold stripList
  rw [h1, h2, List.reverse_reverse]

theorem strip_reverse_eq (l : List Char) :
    (stripList l).reverse = (l.dropWhile isPyWs).reverse.dropWhile isPyWs := by
  unfold stripList
  rw [List.reverse_reverse]

theorem strip_idem (l : List Char) : stripList (stripList l) = stripList l := by
  apply stripped_of_ends
  · obtain ⟨t, ht⟩ := dw_suffix isPyWs (l.dropWhile isPyWs).reverse
    rw [← strip_reverse_eq] at ht
    have hb : stripList l ++ t.reverse = l.dropWhile isPyWs := by
      have := congrArg List.reverse ht
      rw [List.reverse_append, List.reverse_reverse, List.reverse_reverse] at this
      exact this
    cases hbr : stripList l with
    | nil => rfl
    | cons c u =>
      rw [hbr] at hb
      have hhead : (l.dropWhile isPyWs).head? = some c := by
        rw [← hb]
        rfl
      rw [List.dropWhile_cons_of_neg]
      rw [dw_head_not hhead]
      exact Bool.false_ne_true
  · rw [strip_reverse_eq]
    exact dw_dw _

theorem stripped_head {l : List Char} {c : Char} {t : List Char} (h : stripList l = l)
    (hl : l = c :: t) : isPyWs c = false := by
  have h1 := stripped_dw h
  rw [hl] at h1
  by_cases hc : isPyWs c = true
  · exfalso
    rw [List.dropWhile_cons_of_pos hc] at h1
    have := congrArg List.length h1
    have h2 := dw_len_le isPyWs t
    simp only [List.length_cons] at this
    omega
  · revert hc
    cases isPyWs c <;> simp

theorem stripped_last {l : List Char} {c : Char} {t : List Char} (h : stripList l = l)
    (hl : l.reverse = c :: t) : isPyWs c = false := by
  have h1 := stripped_dw_reverse h
  rw [hl] at h1
  by_cases hc : isPyWs c = true
  · exfalso
    rw [List.dropWhile_cons_of_pos hc] at h1
    have := congrArg List.length h1
    have h2 := dw_len_le isPyWs t
    simp only [List.length_cons] at this
    omega
  · revert hc
    cases isPyWs c <;> simp

theorem dw_all_ws {l : List Char} (h : ∀ c ∈ l, isPyWs c = true) :
    l.dropWhile isPyWs = [] := by
  induction l with
  | nil => rfl
  | cons a as ih =>
    rw [List.dropWhile_cons_of_pos (h a (List.mem_cons_self a as))]
    exact ih (fun c hc => h c (List.mem_cons_of_mem a hc))

theorem strip_append_ws {l ds : List Char} (h : ∀ c ∈ ds, isPyWs c = true) :
    stripList (l ++ ds) = stripList l := by
  by_cases hdw : l.dropWhile isPyWs = []
  · have hall : ∀ c ∈ l, isPyWs c = true := List.dropWhile_eq_nil_iff.mp hdw
    have hall2 : ∀ c ∈ l ++ ds, isPyWs c = true := by
      intro c hc
      rcases List.mem_append.mp hc with hc | hc
      · exact hall c hc
      · exact h c hc
    unfold stripList
    rw [hdw, dw_all_ws hall2]
  · have hsplit : (l ++ ds).dropWhile isPyWs = l.dropWhile isPyWs ++ ds := by
      rw [List.dropWhile_append]
      rw [if_neg]
      simp only [List.isEmpty_iff]
      exact hdw
    unfold stripList
    rw [hsplit, List.reverse_append]
    rw [List.dropWhile_append_of_pos]
    intro c hc
    exact h c (List.mem_reverse.mp hc)

/-! ### Joined-description machinery -/

theorem pyStrip_data (s : String) : (pyStrip s).data = stripList s.data := rfl

theorem pyStrip_stripped (s : String) : stripList (pyStrip s).data = (pyStrip s).data :=
  strip_idem s.data

theorem pyStrip_ne_data {s : String} (h : pyStrip s ≠ "") : (pyStrip s).data ≠ [] :=
  fun hd => h (strExt hd)

theorem joinSpace_head :
    ∀ (ms : List String), (∀ m ∈ ms, pyStrip m ≠ "") → ms ≠ [] →
    ∃ c t, (joinSpace (ms.map pyStrip)).data = c :: t ∧ isPyWs c = false := by
  intro ms
  induction ms with
  | nil =>
    intro _ hne
    exact absurd rfl hne
  | cons m ms' ih =>
    intro h _
    have hm : pyStrip m ≠ "" := h m (List.mem_cons_self m ms')
    cases hd : (pyStrip m).data with
    | nil => exact absurd hd (pyStrip_ne_data hm)
    | cons c t =>
      have hc : isPyWs c = false := stripped_head (pyStrip_stripped m) hd
      cases ms' with
      | nil => exact ⟨c, t, hd, hc⟩
      | cons m2 ms'' =>
        refine ⟨c, t ++ ' ' :: (joinSpace (List.map pyStrip (m2 :: ms''))).data, ?_, hc⟩
        show ((pyStrip m ++ " ") ++ joinSpace (List.map pyStrip (m2 :: ms''))).data = _
        rw [data_append, data_append, hd]
        simp

theorem joinSpace_last :
    ∀ (ms : List String), (∀ m ∈ ms, pyStrip m ≠ "") → ms ≠ [] →
    ∃ c t, (joinSpace (ms.map pyStrip)).data.reverse = c :: t ∧ isPyWs c = false := by
  intro ms
  induction ms with
  | nil =>
    intro _ hne
    exact absurd rfl hne
  | cons m ms' ih =>
    intro h _
    cases ms' with
    | nil =>
      have hm : pyStrip m ≠ "" := h m (List.mem_cons_self m [])
      cases hd : (pyStrip m).data.reverse with
      | nil =>
        exfalso
        exact pyStrip_ne_data hm (by
          have := congrArg List.reverse hd
          rwa [List.reverse_reverse] at this)
      | cons c t =>
        exact ⟨c, t, hd, stripped_last (pyStrip_stripped m) hd⟩
    | cons m2 ms'' =>
      obtain ⟨c, t, hd, hc⟩ :=
        ih (fun x hx => h x (List.mem_cons_of_mem m hx)) (by simp)
      refine ⟨c, t ++ (' ' :: (pyStrip m).data.reverse), ?_, hc⟩
      show ((pyStrip m ++ " ") ++ joinSpace (List.map pyStrip (m2 :: ms''))).data.reverse = _
      rw [data_append, data_append, List.reverse_append, hd]
      simp [List.reverse_append, List.append_assoc]

theorem accStrOf_data :
    ∀ (ms : List String), ms ≠ [] →
    (accStrOf ms).data = (joinSpace (ms.map pyStrip)).data ++ [' '] := by
  intro ms
  induction ms with
  | nil =>
    intro hne
    exact absurd rfl hne
  | cons m ms' ih =>
    intro _
    cases ms' with
    | nil =>
      show ((pyStrip m ++ " ") ++ "").data = (pyStrip m).data ++ [' ']
      rw [data_append, data_append]
      simp
    | cons m2 ms'' =>
      show ((pyStrip m ++ " ") ++ accStrOf (m2 :: ms'')).data
          = ((pyStrip m ++ " ") ++ joinSpace (List.map pyStrip (m2 :: ms''))).data ++ [' ']
      rw [data_append, data_append, ih (by simp)]
      simp

theorem joinSpace_stripped (ms : List String) (h : ∀ m ∈ ms, pyStrip m ≠ "") :
    stripList (joinSpace (ms.map pyStrip)).data = (joinSpace (ms.map pyStrip)).data := by
  cases hms : ms with
  | nil => rfl
  | cons m ms' =>
    rw [← hms]
    have hne : ms ≠ [] := by
      rw [hms]
      simp
    obtain ⟨c, t, hd, hc⟩ := joinSpace_head ms h hne
    obtain ⟨c2, t2, hd2, hc2⟩ := joinSpace_last ms h hne
    apply stripped_of_ends
    · rw [hd]
      rw [List.dropWhile_cons_of_neg]
      rw [hc]
      exact Bool.false_ne_true
    · rw [hd2]
      rw [List.dropWhile_cons_of_neg]
      rw [hc2]
      exact Bool.false_ne_true

theorem pyStrip_accStrOf (ms : List String) (h : ∀ m ∈ ms, pyStrip m ≠ "") (hne : ms ≠ []) :
    pyStrip (accStrOf ms) = joinSpace (ms.map pyStrip)
    ∧ joinSpace (ms.map pyStrip) ≠ "" := by
  constructor
  · apply strExt
    rw [pyStrip_data, accStrOf_data ms hne]
    rw [strip_append_ws (by decide)]
    exact joinSpace_stripped ms h
  · obtain ⟨c, t, hd, -⟩ := joinSpace_head ms h hne
    intro hjoin
    rw [hjoin] at hd
    exact List.noConfusion hd

/-! ### Identity-section loop lemmas -/

theorem markerTest_hash {m : String} (h : markerTest m = true) :
    pyStartsWith (pyStrip m) "#" = true := by
  unfold markerTest at h
  unfold pyStartsWith at h ⊢
  have hup : (pyUpper (pyStrip m)).data = (pyStrip m).data.map Char.toUpper := rfl
  rw [hup] at h
  cases hd : (pyStrip m).data with
  | nil =>
    rw [hd] at h
    exact absurd h (by decide)
  | cons c t =>
    rw [hd] at h
    have hm : markerStr.data = '#' :: " IDENTITY AND PURPOSE".data := by decide
    rw [hm] at h
    simp only [List.map_cons, listPre, Bool.and_eq_true, decide_eq_true_eq] at h
    have hc : c = '#' := toUpper_eq_hash h.1.symm
    have hh : ("#" : String).data = ['#'] := rfl
    rw [hh]
    simp [listPre, hc]

theorem markerTest_of_not_hash {m : String} (h : pyStartsWith (pyStrip m) "#" = false) :
    markerTest m = false := by
  cases hk : markerTest m with
  | false => rfl
  | true =>
    have h2 := markerTest_hash hk
    rw [h2] at h
    exact Bool.noConfusion h

theorem identityLoop_skip :
    ∀ (ls rest : List String) (acc : String),
    (∀ l ∈ ls, markerTest l = false) →
    identityLoop false acc (ls ++ rest) = identityLoop false acc rest := by
  intro ls
  induction ls with
  | nil =>
    intro rest acc _
    rfl
  | cons l ls' ih =>
    intro rest acc h
    have h1 : markerTest l = false := h l (List.mem_cons_self l ls')
    show identityLoop false acc (l :: (ls' ++ rest)) = _
    simp only [identityLoop, h1, Bool.false_eq_true, if_false, Bool.and_false,
      Bool.false_and]
    exact ih rest acc (fun x hx => h x (List.mem_cons_of_mem l hx))

theorem identityLoop_marker (acc : String) (rest : List String) {l : String}
    (h : markerTest l = true) :
    identityLoop false acc (l :: rest) = identityLoop true acc rest := by
  simp only [identityLoop, h, if_true]

theorem identityLoop_acc :
    ∀ (ms rest : List String) (acc : String),
    (∀ m ∈ ms, pyStartsWith (pyStrip m) "#" = false) →
    identityLoop true acc (ms ++ rest)
      = identityLoop true (acc ++ accStrOf (ms.filter (fun m => !(pyStrip m == "")))) rest := by
  intro ms
  induction ms with
  | nil =>
    intro rest acc _
    rw [List.nil_append, List.filter_nil]
    show identityLoop true acc rest = identityLoop true (acc ++ "") rest
    rw [str_append_nil]
  | cons m ms' ih =>
    intro rest acc h
    have hm := h m (List.mem_cons_self m ms')
    have hmk : markerTest m = false := markerTest_of_not_hash hm
    by_cases hb : (pyStrip m == "") = true
    · show identityLoop true acc (m :: (ms' ++ rest)) = _
      simp only [identityLoop, hmk, hm, Bool.false_eq_true, if_false, Bool.false_and,
        Bool.true_and, hb, Bool.not_true, Bool.and_false]
      rw [List.filter_cons_of_neg (by simp [hb])]
      exact ih rest acc (fun x hx => h x (List.mem_cons_of_mem m hx))
    · have hb' : (pyStrip m == "") = false := by
        revert hb
        cases (pyStrip m == "") <;> simp
      show identityLoop true acc (m :: (ms' ++ rest)) = _
      simp only [identityLoop, hmk, hm, Bool.false_eq_true, if_false, Bool.false_and,
        Bool.true_and, hb', Bool.not_false, Bool.and_true, if_true]
      rw [ih rest (acc ++ pyStrip m ++ " ") (fun x hx => h x (List.mem_cons_of_mem m hx))]
      rw [List.filter_cons_of_pos (by simp [hb'])]
      show _ = identityLoop true (acc ++ ((pyStrip m ++ " ") ++ accStrOf _)) rest
      rw [str_append_assoc acc (pyStrip m) " ", str_append_assoc acc (pyStrip m ++ " ") _,
        str_append_assoc (pyStrip m) " " _]

theorem identityLoop_break (acc : String) {l : String} (rest : List String)
    (h1 : markerTest l = false) (h2 : pyStartsWith (pyStrip l) "#" = true) :
    identityLoop true acc (l :: rest) = acc := by
  simp only [identityLoop, h1, Bool.false_eq_true, if_false, h2, Bool.true_and, if_true]

theorem description_of_section
    (f content : String) (pre mids rest2 : List String) (markerLine : String)
    (hsplit : pySplitNl content = pre ++ markerLine :: (mids ++ rest2))
    (hpre : ∀ l ∈ pre, markerTest l = false)
    (hmark : markerTest markerLine = true)
    (hmids : ∀ m ∈ mids, pyStartsWith (pyStrip m) "#" = false)
    (hnb : mids.filter (fun m => !(pyStrip m == "")) ≠ [])
    (hrest : rest2 = []
      ∨ ∃ hl rs, rest2 = hl :: rs ∧ markerTest hl = false
          ∧ pyStartsWith (pyStrip hl) "#" = true) :
    (loadPromptFile f content).description
      = joinSpace ((mids.filter (fun m => !(pyStrip m == ""))).map pyStrip) := by
  have hdesc : identityLoop false "" (pySplitNl content)
      = accStrOf (mids.filter (fun m => !(pyStrip m == ""))) := by
    rw [hsplit]
    rw [identityLoop_skip pre (markerLine :: (mids ++ rest2)) "" hpre]
    rw [identityLoop_marker "" (mids ++ rest2) hmark]
    rw [identityLoop_acc mids rest2 "" hmids]
    rw [str_nil_append]
    rcases hrest with h0 | ⟨hl, rs, hrs, hm1, hm2⟩
    · rw [h0]
      rfl
    · rw [hrs]
      exact identityLoop_break _ rs hm1 hm2
  have hfilter_all : ∀ m ∈ mids.filter (fun m => !(pyStrip m == "")), pyStrip m ≠ "" := by
    intro m hm
    have h2 := (List.mem_filter.mp hm).2
    simp only [Bool.not_eq_true'] at h2
    exact beq_eq_false_iff_ne.mp h2
  obtain ⟨hps, hne⟩ := pyStrip_accStrOf _ hfilter_all hnb
  show pyStrip (if pyStrip (identityLoop false "" (pySplitNl content)) == "" then
      fallbackLoop (pySplitNl content) else identityLoop false "" (pySplitNl content)) = _
  rw [hdesc]
  have hcond : (pyStrip (accStrOf (mids.filter (fun m => !(pyStrip m == "")))) == "") = false :=
    beq_eq_false_iff_ne.mpr (by
      rw [hps]
      exact hne)
  rw [hcond]
  rw [if_neg (by decide)]
  exact hps

/-- Counterexample to claim C2 as literally stated: when the terminating
heading line itself passes the marker test (here
`# IDENTITY AND PURPOSE CONTINUED`), the loop does not stop there, so the
description also contains text from the following section. -/
theorem claim_C2_counterexample :
    (loadPromptFile "a.md"
        "# IDENTITY AND PURPOSE\nDoes A things.\n# IDENTITY AND PURPOSE CONTINUED\nleaked\n# USAGE\nuse").description
      = "Does A things. leaked"
    ∧ "Does A things. leaked" ≠ "Does A things." := by
  refine ⟨by decide, by decide⟩

/-- Claim C2 (amended): in a file whose lines split as some prefix without
marker lines, the `# IDENTITY AND PURPOSE` marker line, one or more non-blank
lines that do not start with `#`, and then a heading line starting with `#`
(after trimming) that is not itself a marker line, the description equals
exactly the intervening lines, each trimmed, joined by single spaces — hence it
contains no text from the following heading's section. -/
theorem claim_C2 (file content : String) (pre mids post : List String)
    (markerLine heading : String)
    (hsplit : pySplitNl content = pre ++ markerLine :: (mids ++ heading :: post))
    (hpre : ∀ l ∈ pre, markerTest l = false)
    (hmark : markerTest markerLine = true)
    (hmids : ∀ m ∈ mids, pyStrip m ≠ "" ∧ pyStartsWith (pyStrip m) "#" = false)
    (hne : mids ≠ [])
    (hhead : pyStartsWith (pyStrip heading) "#" = true)
    (hheadNM : markerTest heading = false) :
    (loadPromptFile file content).description = joinSpace (mids.map pyStrip) := by
  have hfil : mids.filter (fun m => !(pyStrip m == "")) = mids := by
    apply List.filter_eq_self.mpr
    intro m hm
    simp [(hmids m hm).1]
  have h := description_of_section file content pre mids (heading :: post) markerLine hsplit
    hpre hmark (fun m hm => (hmids m hm).2)
    (by
      rw [hfil]
      exact hne)
    (Or.inr ⟨heading, post, rfl, hheadNM, hhead⟩)
  rwa [hfil] at h

theorem claim_C2_witness :
    (loadPromptFile "a.md"
        "# A\n\n# IDENTITY AND PURPOSE\nDoes A things.\nReally.\n# USAGE\nuse").description
      = "Does A things. Really." := by
  have h := claim_C2 "a.md" "# A\n\n# IDENTITY AND PURPOSE\nDoes A things.\nReally.\n# USAGE\nuse"
    ["# A", ""] ["Does A things.", "Really."] ["use"] "# IDENTITY AND PURPOSE" "# USAGE"
    (by decide) (by decide) (by decide) (by decide) (by decide) (by decide) (by decide)
  rw [h]
  decide

/-- Claim C10: with the marker present but no later `#` heading, the
description accumulates every non-blank line (trimmed, joined by single
spaces) from the marker to the end of the file; blank lines neither stop the
accumulation nor appear in the result. -/
theorem claim_C10 (file content : String) (pre mids : List String) (markerLine : String)
    (hsplit : pySplitNl content = pre ++ markerLine :: mids)
    (hpre : ∀ l ∈ pre, markerTest l = false)
    (hmark : markerTest markerLine = true)
    (hmids : ∀ m ∈ mids, pyStartsWith (pyStrip m) "#" = false)
    (hnb : mids.filter (fun m => !(pyStrip m == "")) ≠ []) :
    (loadPromptFile file content).description
      = joinSpace ((mids.filter (fun m => !(pyStrip m == ""))).map pyStrip) :=
  description_of_section file content pre mids [] markerLine
    (by rw [hsplit, List.append_nil]) hpre hmark hmids hnb (Or.inl rfl)

theorem claim_C10_witness :
    (loadPromptFile "a.md" "# IDENTITY AND PURPOSE\nDoes A things.\n\nAnd more.").description
      = "Does A things. And more." := by
  have h := claim_C10 "a.md" "# IDENTITY AND PURPOSE\nDoes A things.\n\nAnd more."
    [] ["Does A things.", "", "And more."] "# IDENTITY AND PURPOSE"
    (by decide) (by decide) (by decide) (by decide) (by decide)
  rw [h]
  decide

/-! ### Fallback-description lemmas and claim C3 -/

theorem fallbackLoop_skip :
    ∀ (ls rest : List String),
    (∀ l ∈ ls, pyStrip l = "" ∨ pyStartsWith l "#" = true) →
    fallbackLoop (ls ++ rest) = fallbackLoop rest := by
  intro ls
  induction ls with
  | nil =>
    intro rest _
    rfl
  | cons l ls' ih =>
    intro rest h
    have h1 := h l (List.mem_cons_self l ls')
    show fallbackLoop (l :: (ls' ++ rest)) = _
    rcases h1 with h1 | h1
    · simp only [fallbackLoop, h1, beq_self_eq_true, Bool.not_true, Bool.false_and,
        Bool.false_eq_true, if_false]
      exact ih rest (fun x hx => h x (List.mem_cons_of_mem l hx))
    · simp only [fallbackLoop, h1, Bool.not_true, Bool.and_false, Bool.false_eq_true, if_false]
      exact ih rest (fun x hx => h x (List.mem_cons_of_mem l hx))

theorem fallbackLoop_hit {q : String} (rest : List String)
    (h1 : pyStrip q ≠ "") (h2 : pyStartsWith q "#" = false) :
    fallbackLoop (q :: rest) = pySlice 100 (pyStrip q) ++ "..." := by
  have hb : (pyStrip q == "") = false := beq_eq_false_iff_ne.mpr h1
  simp only [fallbackLoop, hb, h2, Bool.not_false, Bool.and_self, if_true]

theorem strip_slice_dots {q : String} (h : pyStrip q ≠ "") :
    pyStrip (pySlice 100 (pyStrip q) ++ "...") = pySlice 100 (pyStrip q) ++ "..." := by
  apply strExt
  rw [pyStrip_data]
  have hdd : (pySlice 100 (pyStrip q) ++ "...").data
      = (pyStrip q).data.take 100 ++ ['.', '.', '.'] := by
    rw [data_append]
    rfl
  rw [hdd]
  apply stripped_of_ends
  · cases hd : (pyStrip q).data with
    | nil => exact absurd hd (pyStrip_ne_data h)
    | cons c t =>
      have hc := stripped_head (pyStrip_stripped q) hd
      rw [show (100 : Nat) = 99 + 1 from rfl, List.take_succ_cons, List.cons_append,
        List.dropWhile_cons_of_neg]
      rw [hc]
      exact Bool.false_ne_true
  · rw [List.reverse_append]
    show List.dropWhile isPyWs
        ('.' :: '.' :: '.' :: (List.take 100 (pyStrip q).data).reverse)
      = '.' :: '.' :: '.' :: (List.take 100 (pyStrip q).data).reverse
    rw [List.dropWhile_cons_of_neg (by decide)]

/-- Counterexample to claim C3 as literally stated: a non-empty file with no
qualifying line (here the single heading line `# A`) has an empty description
but a non-empty content, while the claim asserts the content is empty too. -/
theorem claim_C3_counterexample :
    (loadPromptFile "a.md" "# A").description = ""
    ∧ (loadPromptFile "a.md" "# A").content ≠ "" := by
  refine ⟨by decide, by decide⟩

/-- Claim C3 (amended): whenever the identity-section scan yields only
whitespace (in particular when no marker line exists), the description is the
first non-blank line not starting with `#`, trimmed, truncated to 100
characters with `"..."` appended; with no qualifying line the description is
empty.  The content field always equals the raw text read, so it is empty
exactly for the empty file. -/
theorem claim_C3 :
    ∀ (file content : String) (pre rest : List String) (q : String),
    ((∀ l ∈ pySplitNl content, markerTest l = false) →
      pyStrip (identityLoop false "" (pySplitNl content)) = "")
    ∧ (pyStrip (identityLoop false "" (pySplitNl content)) = "" →
        pySplitNl content = pre ++ q :: rest →
        (∀ l ∈ pre, pyStrip l = "" ∨ pyStartsWith l "#" = true) →
        pyStrip q ≠ "" → pyStartsWith q "#" = false →
        (loadPromptFile file content).description = pySlice 100 (pyStrip q) ++ "...")
    ∧ (pyStrip (identityLoop false "" (pySplitNl content)) = "" →
        (∀ l ∈ pySplitNl content, pyStrip l = "" ∨ pyStartsWith l "#" = true) →
        (loadPromptFile file content).description = "")
    ∧ (loadPromptFile file content).content = content
    ∧ (loadPromptFile file "").description = ""
    ∧ (loadPromptFile file "").content = "" := by
  intro file content pre rest q
  refine ⟨?_, ?_, ?_, rfl, rfl, rfl⟩
  · intro h
    have h2 := identityLoop_skip (pySplitNl content) [] "" h
    rw [List.append_nil] at h2
    rw [h2]
    rfl
  · intro hws hsplit hpre h1 h2
    have hfb : fallbackLoop (pySplitNl content) = pySlice 100 (pyStrip q) ++ "..." := by
      rw [hsplit, fallbackLoop_skip pre (q :: rest) hpre, fallbackLoop_hit rest h1 h2]
    show pyStrip (if pyStrip (identityLoop false "" (pySplitNl content)) == "" then
        fallbackLoop (pySplitNl content) else identityLoop false "" (pySplitNl content)) = _
    rw [hws, if_pos (by decide), hfb, strip_slice_dots h1]
  · intro hws hall
    have hfb : fallbackLoop (pySplitNl content) = "" := by
      have h2 := fallbackLoop_skip (pySplitNl content) [] hall
      rw [List.append_nil] at h2
      exact h2
    show pyStrip (if pyStrip (identityLoop false "" (pySplitNl content)) == "" then
        fallbackLoop (pySplitNl content) else identityLoop false "" (pySplitNl content)) = _
    rw [hws, if_pos (by decide), hfb]
    rfl

theorem claim_C3_witness :
    (loadPromptFile "b.md" "# Title\nhello world\nmore").description
      = pySlice 100 (pyStrip "hello world") ++ "..." :=
  (claim_C3 "b.md" "# Title\nhello world\nmore" ["# Title"] ["more"] "hello world").2.1
    (by decide) (by decide) (by decide) (by decide) (by decide)

end PromptsMcp
